import Mathlib

/-!
Verification of the dual-backend blog persistence logic of `blog.js`
(browser blog editor with local-storage persistence and optional GitHub
content-API sync).

The development shallowly embeds the storage subsystem:
* `Record` / `upsert` / `removeById` — the local Record Store helpers;
* `GhSettings` / `hasGhConfig` / `readerRemoteGate` — the configuration gates;
* `JVal` / `loadArray` — defensive local-storage reads;
* `stripTagsList` / `jsTrimList` — the publish validation helpers;
* `gatherPostData` — record construction from editor form state;
* `Entry` / `upsertIndexList` — the remote index maintainer;
* `getContentSha` / `putFilePayload` — the GitHub contents-API client;
* `MachineState` / `Reachable` — the editor page's event handlers as a
  transition system.
-/

set_option maxRecDepth 4096

namespace Blog

/-- A content record, as produced by `gatherPostData` in `blog.js`:
`{ id, title, content, cover, excerpt, updatedAt, createdAt }`.
Epoch-millisecond timestamps are modelled as `Nat`. -/
structure Record where
  id : String
  title : String
  content : String
  cover : String
  excerpt : String
  createdAt : Nat
  updatedAt : Nat
deriving DecidableEq, Repr

/-- Models `upsert(arr, item)` from `blog.js`:
`findIndex` on the id field, assign in place when found, push otherwise.
All call sites use the default id field, so the model specialises to `id`. -/
def upsert (arr : List Record) (item : Record) : List Record :=
  match arr.findIdx? (fun x => x.id == item.id) with
  | some idx => arr.set idx item
  | none => arr ++ [item]

/-- Structural reformulation of `upsert` (replace the first element sharing
the id, else append); proved equal to `upsert` in `upsert_eq_upsertRec`. -/
def upsertRec : List Record → Record → List Record
  | [], item => [item]
  | x :: xs, item => if x.id == item.id then item :: xs else x :: upsertRec xs item

/-- Models `removeById(arr, id)` from `blog.js`: `arr.filter(x => x.id !== id)`. -/
def removeById (arr : List Record) (i : String) : List Record :=
  arr.filter (fun x => x.id != i)

/-- GitHub settings `{ owner, repo, branch, token }` as stored under the
`portfolio_github_settings` key. A field absent from the stored JSON object
is modelled as the empty string (JS `undefined` and `''` are both falsy). -/
structure GhSettings where
  owner : String
  repo : String
  branch : String
  token : String
deriving DecidableEq, Repr

/-- Models `hasGhConfig()` from `blog.js`:
`s && s.owner && s.repo && s.branch && s.token` — the settings object is
present and all four fields are truthy (non-empty). -/
def hasGhConfig : Option GhSettings → Bool
  | none => false
  | some s => s.owner != "" && s.repo != "" && s.branch != "" && s.token != ""

/-- The reader page's gate before attempting the remote raw read:
`if (s && s.owner && s.repo && s.branch)` in the reader IIFE. The token is
not consulted. -/
def readerRemoteGate : Option GhSettings → Bool
  | none => false
  | some s => s.owner != "" && s.repo != "" && s.branch != ""

/-- The reader page's record resolution. When the remote gate passes it
attempts `readRaw('posts/' + id + '.json')` followed by `JSON.parse`; any
fetch error, parse error, or falsy parse result leaves `post` null, which is
modelled as `remote = none`. It then falls back to
`BlogStore.getPostById(id)` and yields `none` (the empty-state branch, not an
exception) when both fail. -/
def resolve (gh : Option GhSettings) (remote : Option Record)
    (posts : List Record) (i : String) : Option Record :=
  let fromRemote := if readerRemoteGate gh then remote else none
  match fromRemote with
  | some p => some p
  | none => posts.find? (fun x => x.id == i)

/-- A parsed JSON value, at the granularity the Record Store needs: either a
JSON array of records, or some other JSON value. -/
inductive JVal where
  | arr (l : List Record)
  | str (s : String)
  | num (n : Int)
  | bool (b : Bool)
  | null
  | obj
deriving DecidableEq, Repr

/-- JS truthiness of a JSON value: `null`, `false`, `0` and `""` are falsy;
arrays and objects are always truthy. -/
def truthy : JVal → Bool
  | .arr _ => true
  | .str s => s != ""
  | .num n => n != 0
  | .bool b => b
  | .null => false
  | .obj => true

/-- The state of one localStorage key as seen by `loadArray`: absent
(`getItem` returns null and `JSON.parse(null)` parses the coerced string
"null" to the JSON null value), present but not parseable (`JSON.parse`
throws), or a parsed JSON value. -/
inductive StoredVal where
  | absent
  | malformed
  | value (v : JVal)
deriving DecidableEq, Repr

/-- Models `loadArray(key)` from `blog.js`:
`try return JSON.parse(localStorage.getItem(key)) || [] catch return []`.
A parse exception yields `[]`; a falsy parsed value (including the
absent-key case) yields `[]`; any truthy parsed value — array or not — is
returned as is. -/
def loadArray : StoredVal → JVal
  | .absent => .arr []
  | .malformed => .arr []
  | .value v => if truthy v then v else .arr []

/-- Whether a JSON value is an array (an ordered sequence of records). -/
def JVal.isArr : JVal → Bool
  | .arr _ => true
  | _ => false

/-- The whitespace characters removed by JS `String.prototype.trim` (ASCII
portion; the Unicode additions never occur in this development). -/
def isJsSpace (c : Char) : Bool :=
  c = ' ' || c = '\t' || c = '\n' || c = '\r' || c = '\x0b' || c = '\x0c'

/-- JS `String.prototype.trim` on a character list: drop whitespace from
both ends. -/
def jsTrimList (l : List Char) : List Char :=
  ((l.dropWhile isJsSpace).reverse.dropWhile isJsSpace).reverse

/-- JS `String.prototype.trim` on strings. -/
def jsTrimS (s : String) : String := ⟨jsTrimList s.data⟩

/-- Fuelled worker for the markup-stripping pass; the fuel only serves to
make the recursion structural (each step consumes at least one character,
so fuel = length of the input always suffices; see
`stripTagsFuel_adequate`). -/
def stripTagsFuel : Nat → List Char → List Char
  | 0, _ => []
  | _ + 1, [] => []
  | fuel + 1, c :: rest =>
    if c == '<' && rest.contains '>' then
      stripTagsFuel fuel ((rest.dropWhile (fun x => x != '>')).drop 1)
    else
      c :: stripTagsFuel fuel rest

/-- One global pass of `content.replace(/<(.|\n)*?>/g, '')`: each match
starts at a `<` and extends (non-greedily) to the first subsequent `>`;
a `<` with no later `>` starts no match, and since every match needs a `>`,
nothing after it matches either, so those characters pass through. The
recurrence this definition satisfies is proved in `stripTagsList_nil` and
`stripTagsList_cons`. -/
def stripTagsList (l : List Char) : List Char := stripTagsFuel l.length l

/-- Models `replace(/<(.|\n)*?>/g, '')` on strings. -/
def stripTagsS (s : String) : String := ⟨stripTagsList s.data⟩

/-- The editor form state from which `gatherPostData()` builds a record: the
raw title input value, the editor HTML (`quill.root.innerHTML`), the editor
plain text (`quill.getText()`), the pending cover data URL, and the clock
reading `Date.now()`. -/
structure FormState where
  rawTitle : String
  content : String
  rawPlainText : String
  cover : String
  now : Nat
deriving DecidableEq, Repr

/-- Models `gatherPostData()` from `blog.js`: the id is the current draft id when
one is loaded, else the freshly generated one; the title is trimmed; the
excerpt is the first 180 characters of the trimmed plain text plus an
ellipsis when truncated; `updatedAt` and `createdAt` are both assigned the
same `Date.now()` reading on every call. -/
def gatherPostData (currentDraftId : Option String) (freshId : String)
    (f : FormState) : Record :=
  let plainText := jsTrimS f.rawPlainText
  { id := currentDraftId.getD freshId
    title := jsTrimS f.rawTitle
    content := f.content
    cover := f.cover
    excerpt := plainText.take 180 ++ (if 180 < plainText.length then "…" else "")
    updatedAt := f.now
    createdAt := f.now }

/-- The publish-time validation in the publish click handler:
`if (!data.title || !data.content.replace(/<(.|\n)*?>/g, '').trim())` —
valid iff the (already trimmed) title is non-empty and the content stripped
of markup and trimmed is non-empty. -/
def validPost (r : Record) : Bool :=
  r.title != "" && jsTrimS (stripTagsS r.content) != ""

/-- An index entry: the reduced projection written to `kind/index.json`.
The timestamps are optional because a pre-existing index parsed from JSON may
lack them; the sort comparator defaults a missing `updatedAt` to 0 via
`|| 0`. -/
structure Entry where
  id : String
  title : String
  excerpt : String
  cover : String
  updatedAt : Option Nat
  createdAt : Option Nat
deriving DecidableEq, Repr

/-- The `meta` projection built in `saveToGitHub`. -/
def metaOf (r : Record) : Entry :=
  { id := r.id, title := r.title, excerpt := r.excerpt, cover := r.cover,
    updatedAt := some r.updatedAt, createdAt := some r.createdAt }

/-- The sort key of `(a, b) => (b.updatedAt || 0) - (a.updatedAt || 0)`:
a missing `updatedAt` counts as 0, i.e. oldest. -/
def entryKey (e : Entry) : Nat := e.updatedAt.getD 0

/-- Stable descending insertion: `e` is placed after every element with a
strictly greater key and before the first element with a smaller-or-equal
key. -/
def insertDesc (e : Entry) : List Entry → List Entry
  | [] => [e]
  | x :: xs =>
    if entryKey e < entryKey x then x :: insertDesc e xs else e :: x :: xs

/-- Models `filtered.sort((a, b) => (b.updatedAt || 0) - (a.updatedAt || 0))`:
`Array.prototype.sort` with a consistent comparator is a stable sort
(ES2019), and a stable descending-by-key rearrangement of a list is unique,
so any stable sorting algorithm models it. Insertion sort via `foldr` is
used here: earlier elements are inserted later and land before equal-key
elements, preserving their relative order. -/
def sortDesc (l : List Entry) : List Entry := l.foldr insertDesc []

/-- Models `upsertIndex(kind, meta)` from `blog.js`, as a pure function of the
existing parsed index (an absent or unparseable remote index is the empty
list at the call site): remove every entry sharing `meta.id`, push `meta`,
sort newest first, write back. -/
def upsertIndexList (existing : List Entry) (meta : Entry) : List Entry :=
  sortDesc (existing.filter (fun x => x.id != meta.id) ++ [meta])

/-- Descending sortedness by `entryKey`. -/
def DescSorted (l : List Entry) : Prop :=
  l.Pairwise (fun a b => entryKey b ≤ entryKey a)

/-- The body of a successful `GET contents/path` response, to the extent
`getContentSha` inspects it: possibly-null JSON (the `data &&` guard), with
a `sha` field that may be missing or empty (the `data.sha` truthiness
check). -/
structure ContentMeta where
  sha : Option String
deriving DecidableEq, Repr

/-- The outcome of one `GitHubClient.request` call: the underlying `fetch`
may reject (network error), the response may carry a non-2xx status (the
client then throws), `res.json()` may reject, or a JSON body is returned. -/
inductive ReqResult where
  | netErr
  | httpErr (status : Nat)
  | jsonErr
  | ok (data : Option ContentMeta)
deriving DecidableEq, Repr

/-- Models `getContentSha(path)` from `blog.js`:
`data && data.sha ? data.sha : null` inside `try`, with
`catch (e) { return null; }` — every failure mode of the lookup request
collapses to `null`, indistinguishable from a genuinely missing path. -/
def getContentSha : ReqResult → Option String
  | .ok (some m) =>
    match m.sha with
    | some s => if s != "" then some s else none
    | none => none
  | _ => none

/-- The JSON body of the `PUT contents/path` request issued by `putFile`:
message, transported content, branch, and `sha: sha || undefined` — the
version token is present exactly when the preceding lookup produced one.
(The base64 transport encoding of the content is orthogonal to every claim;
the content is carried verbatim.) -/
structure PutPayload where
  message : String
  content : String
  branch : String
  sha : Option String
deriving DecidableEq, Repr

/-- Models `putFile(path, contentText, message)` from `blog.js`, as the request
payload it sends given the outcome of its `getContentSha` lookup. -/
def putFilePayload (lookup : ReqResult) (contentText message branch : String) :
    PutPayload :=
  { message := message, content := contentText, branch := branch,
    sha := getContentSha lookup }

/-- The persistent and per-session state operated on by the editor and
reader handlers: the localStorage collections, the stored GitHub settings,
the remote repository's content files per kind (path-addressed by record
id, so a `putFile` is an id-keyed upsert) and per-kind index files, and the
editor session's `currentDraftId`. -/
structure MachineState where
  gh : Option GhSettings
  localDrafts : List Record
  localPosts : List Record
  remoteDrafts : List Record
  remotePosts : List Record
  remoteDraftsIdx : List Entry
  remotePostsIdx : List Entry
  currentDraftId : Option String
deriving DecidableEq, Repr

/-- A fresh deployment: no stored settings, empty collections, no session
draft. -/
def initState : MachineState :=
  { gh := none, localDrafts := [], localPosts := [], remoteDrafts := [],
    remotePosts := [], remoteDraftsIdx := [], remotePostsIdx := [],
    currentDraftId := none }

/-- Outcome of the two sequential remote writes performed by
`saveToGitHub` (content file, then index): both succeed; the content write
fails (nothing written, the caller's catch fires); or the content write
succeeds and the index write fails (the known content-written-but-unindexed
gap, the caller's catch still fires). -/
inductive RemoteOutcome where
  | success
  | contentFailed
  | indexFailed
deriving DecidableEq, Repr

/-- The `gh-save` click handler: stores the four input values, trimmed,
the branch defaulting to "main" when blank. -/
def ghSaveStep (s : MachineState) (owner repo branch token : String) :
    MachineState :=
  let cfg : GhSettings :=
    { owner := jsTrimS owner, repo := jsTrimS repo,
      branch := if jsTrimS branch = "" then "main" else jsTrimS branch,
      token := jsTrimS token }
  { s with gh := some cfg }

/-- The `gh-clear` click handler: `setGhSettings({})` — the stored object
exists but has no fields, all of them falsy. -/
def ghClearStep (s : MachineState) : MachineState :=
  let cfg : GhSettings := { owner := "", repo := "", branch := "", token := "" }
  { s with gh := some cfg }

/-- The `save-draft-local` click handler: gather the record, upsert it into
the local drafts collection, remember its id as the current draft. -/
def saveLocalStep (s : MachineState) (f : FormState) (freshId : String) :
    MachineState :=
  let data := gatherPostData s.currentDraftId freshId f
  { s with
      localDrafts := upsert s.localDrafts data
      currentDraftId := some data.id }

/-- The `save-draft-gh` click handler: refuses without full GitHub
configuration; otherwise gathers the record and runs
`saveToGitHub('drafts', data)` (content file, then index), a failure
alerting without further state change. Note the handler does not update
`currentDraftId`. -/
def saveGhStep (s : MachineState) (f : FormState) (freshId : String)
    (o : RemoteOutcome) : MachineState :=
  if hasGhConfig s.gh then
    let data := gatherPostData s.currentDraftId freshId f
    match o with
    | .contentFailed => s
    | .indexFailed => { s with remoteDrafts := upsert s.remoteDrafts data }
    | .success =>
      { s with
          remoteDrafts := upsert s.remoteDrafts data
          remoteDraftsIdx := upsertIndexList s.remoteDraftsIdx (metaOf data) }
  else s

/-- The `publish` click handler: validate title and stripped content; in
GitHub mode run `saveToGitHub('posts', data)` and on success delete the
same-id local draft and navigate to the reader page (ending the editor
session, modelled by clearing `currentDraftId`); in local mode publish to
the local posts collection, delete the same-id local draft, and navigate.
On a remote failure the catch alerts and nothing further changes — in
particular the local draft survives. The remote drafts collection is never
touched. -/
def publishStep (s : MachineState) (f : FormState) (freshId : String)
    (o : RemoteOutcome) : MachineState :=
  let data := gatherPostData s.currentDraftId freshId f
  if validPost data then
    if hasGhConfig s.gh then
      match o with
      | .contentFailed => s
      | .indexFailed => { s with remotePosts := upsert s.remotePosts data }
      | .success =>
        { s with
            remotePosts := upsert s.remotePosts data
            remotePostsIdx := upsertIndexList s.remotePostsIdx (metaOf data)
            localDrafts := removeById s.localDrafts data.id
            currentDraftId := none }
    else
      { s with
          localPosts := upsert s.localPosts data
          localDrafts := removeById s.localDrafts data.id
          currentDraftId := none }
  else s

/-- The draft list's Load button (`loadDraft`): only an id present among the
local drafts becomes the current draft; otherwise the handler returns. -/
def loadDraftStep (s : MachineState) (i : String) : MachineState :=
  if (s.localDrafts.find? (fun d => d.id == i)).isSome then
    { s with currentDraftId := some i }
  else s

/-- The draft list's Delete button: `BlogStore.deleteDraft(id)`. -/
def deleteDraftStep (s : MachineState) (i : String) : MachineState :=
  { s with localDrafts := removeById s.localDrafts i }

/-- Models `BlogStore.deletePost(id)`, the posts-side deletion. -/
def deletePostStep (s : MachineState) (i : String) : MachineState :=
  { s with localPosts := removeById s.localPosts i }

/-- A generated id (`generateId()`: random base-36 fragment plus base-36
timestamp) is assumed globally fresh: it occurs in no collection of either
backend. -/
def FreshId (s : MachineState) (i : String) : Prop :=
  i ∉ s.localDrafts.map Record.id ∧ i ∉ s.localPosts.map Record.id ∧
  i ∉ s.remoteDrafts.map Record.id ∧ i ∉ s.remotePosts.map Record.id

instance (s : MachineState) (i : String) : Decidable (FreshId s i) := by
  unfold FreshId
  infer_instance

/-- The states reachable from a fresh deployment by the page's event
handlers, generated ids being fresh. -/
inductive Reachable : MachineState → Prop where
  | init : Reachable initState
  | ghSave (s) (owner repo branch token : String) :
      Reachable s → Reachable (ghSaveStep s owner repo branch token)
  | ghClear (s) : Reachable s → Reachable (ghClearStep s)
  | saveLocal (s) (f : FormState) (freshId : String) :
      Reachable s → FreshId s freshId → Reachable (saveLocalStep s f freshId)
  | saveGh (s) (f : FormState) (freshId : String) (o : RemoteOutcome) :
      Reachable s → FreshId s freshId → Reachable (saveGhStep s f freshId o)
  | publish (s) (f : FormState) (freshId : String) (o : RemoteOutcome) :
      Reachable s → FreshId s freshId → Reachable (publishStep s f freshId o)
  | loadDraft (s) (i : String) : Reachable s → Reachable (loadDraftStep s i)
  | deleteDraft (s) (i : String) : Reachable s → Reachable (deleteDraftStep s i)
  | deletePost (s) (i : String) : Reachable s → Reachable (deletePostStep s i)

/-- The inductive invariant backing the local half of the per-backend
exclusivity property: no local draft's id occurs among the local posts, and
the session's current draft id (when set) does not occur among the local
posts either. -/
def localInv (s : MachineState) : Prop :=
  (∀ r ∈ s.localDrafts, r.id ∉ s.localPosts.map Record.id) ∧
  (∀ i, s.currentDraftId = some i → i ∉ s.localPosts.map Record.id)

def c1form1 : FormState :=
  { rawTitle := "T", content := "hello", rawPlainText := "hello", cover := "", now := 1 }

def c1form2 : FormState :=
  { rawTitle := "T", content := "hello", rawPlainText := "hello", cover := "", now := 2 }

def c2cfg : GhSettings :=
  { owner := "o", repo := "r", branch := "main", token := "" }

def c2post : Record :=
  { id := "x", title := "t", content := "c", cover := "", excerpt := "e",
    createdAt := 1, updatedAt := 1 }

def c3f1 : FormState :=
  { rawTitle := "T", content := "hello", rawPlainText := "hello", cover := "", now := 1 }

def c3f2 : FormState :=
  { rawTitle := "T", content := "hello", rawPlainText := "hello", cover := "", now := 2 }

/-- The counterexample trace for per-backend exclusivity: configure GitHub,
save a draft locally (the session's current draft id becomes "X"), save the
same draft to GitHub, then publish it to GitHub, every remote write
succeeding. -/
def c3state : MachineState :=
  publishStep
    (saveGhStep
      (saveLocalStep (ghSaveStep initState "o" "r" "main" "t") c3f1 "X")
      c3f1 "Y" RemoteOutcome.success)
    c3f2 "Z" RemoteOutcome.success

def c3wform : FormState :=
  { rawTitle := "W", content := "w", rawPlainText := "w", cover := "", now := 7 }

def c4e100 : Entry :=
  { id := "a", title := "", excerpt := "", cover := "", updatedAt := some 100,
    createdAt := some 100 }

def c4e300 : Entry :=
  { id := "b", title := "", excerpt := "", cover := "", updatedAt := some 300,
    createdAt := some 300 }

def c4e200 : Entry :=
  { id := "c", title := "", excerpt := "", cover := "", updatedAt := some 200,
    createdAt := some 200 }

def c5form : FormState :=
  { rawTitle := "   ", content := "hello", rawPlainText := "hello", cover := "", now := 3 }

def c6cfg : GhSettings :=
  { owner := "o", repo := "r", branch := "main", token := "t" }

def c7form0 : FormState :=
  { rawTitle := "T", content := "hello", rawPlainText := "hello", cover := "", now := 1 }

def c7form : FormState :=
  { rawTitle := "T2", content := "hello again", rawPlainText := "hello again",
    cover := "", now := 2 }

def c7s0 : MachineState := saveLocalStep initState c7form0 "A"

def c7rec : Record := gatherPostData none "A" c7form0

def c8b : Record :=
  { id := "a", title := "B", content := "", cover := "", excerpt := "",
    createdAt := 0, updatedAt := 0 }

def c8c : Record :=
  { id := "a", title := "C", content := "", cover := "", excerpt := "",
    createdAt := 0, updatedAt := 0 }

def c8r : Record :=
  { id := "a", title := "R", content := "", cover := "", excerpt := "",
    createdAt := 1, updatedAt := 1 }

def c8r2 : Record :=
  { id := "a", title := "R2", content := "", cover := "", excerpt := "",
    createdAt := 2, updatedAt := 2 }

def c8z : Record :=
  { id := "z", title := "Z", content := "", cover := "", excerpt := "",
    createdAt := 0, updatedAt := 0 }

theorem upsert_eq_upsertRec (arr : List Record) (item : Record) :
    upsert arr item = upsertRec arr item := by
  induction arr with
  | nil => rfl
  | cons x xs ih =>
    unfold upsert upsertRec
    rw [List.findIdx?_cons]
    by_cases hx : x.id == item.id
    · simp [hx]
    · simp only [hx, if_false, Bool.false_eq_true]
      rw [List.findIdx?_succ]
      cases h : xs.findIdx? (fun y => y.id == item.id) with
      | some i =>
        have ih2 : xs.set i item = upsertRec xs item := by
          have hi := ih
          unfold upsert at hi
          rw [h] at hi
          exact hi
        simp [ih2]
      | none =>
        have ih2 : xs ++ [item] = upsertRec xs item := by
          have hi := ih
          unfold upsert at hi
          rw [h] at hi
          exact hi
        simp [ih2]

theorem mem_removeById {arr : List Record} {i : String} {x : Record} :
    x ∈ removeById arr i ↔ x ∈ arr ∧ x.id ≠ i := by
  simp [removeById, List.mem_filter]

theorem mem_upsertRec {arr : List Record} {item x : Record}
    (h : x ∈ upsertRec arr item) : x ∈ arr ∨ x = item := by
  induction arr with
  | nil => simpa [upsertRec] using h
  | cons y ys ih =>
    unfold upsertRec at h
    by_cases hy : y.id == item.id
    · simp only [hy, if_true] at h
      rcases List.mem_cons.mp h with h | h
      · exact Or.inr h
      · exact Or.inl (List.mem_cons_of_mem _ h)
    · simp only [hy, if_false, Bool.false_eq_true] at h
      rcases List.mem_cons.mp h with h | h
      · exact Or.inl (h ▸ List.mem_cons_self _ _)
      · rcases ih h with h | h
        · exact Or.inl (List.mem_cons_of_mem _ h)
        · exact Or.inr h

theorem mem_upsert {arr : List Record} {item x : Record}
    (h : x ∈ upsert arr item) : x ∈ arr ∨ x = item :=
  mem_upsertRec (upsert_eq_upsertRec arr item ▸ h)

theorem stripTagsFuel_succ_cons (fuel : Nat) (c : Char) (rest : List Char) :
    stripTagsFuel (fuel + 1) (c :: rest) =
      if c == '<' && rest.contains '>' then
        stripTagsFuel fuel ((rest.dropWhile (fun x => x != '>')).drop 1)
      else
        c :: stripTagsFuel fuel rest := rfl

theorem dropThroughGt_length_le (rest : List Char) :
    ((rest.dropWhile (fun x => x != '>')).drop 1).length ≤ rest.length := by
  have h1 : (rest.dropWhile (fun x => x != '>')).length ≤ rest.length :=
    List.IsSuffix.length_le (List.dropWhile_suffix _)
  rw [List.length_drop]
  omega

theorem stripTagsFuel_adequate :
    ∀ (n : Nat) (l : List Char), l.length ≤ n →
      stripTagsFuel n l = stripTagsFuel l.length l := by
  intro n
  induction n using Nat.strong_induction_on with
  | _ n ih =>
    intro l hl
    match n, l with
    | 0, l =>
      have : l = [] := List.eq_nil_of_length_eq_zero (Nat.le_zero.mp hl)
      subst this
      rfl
    | n + 1, [] => rfl
    | n + 1, c :: rest =>
      have hrest : rest.length ≤ n := by
        simpa [List.length_cons, Nat.succ_le_succ_iff] using hl
      rw [List.length_cons, stripTagsFuel_succ_cons, stripTagsFuel_succ_cons]
      by_cases hc : (c == '<' && rest.contains '>') = true
      · rw [if_pos hc, if_pos hc]
        have hd := dropThroughGt_length_le rest
        rw [ih n (Nat.lt_succ_self n) _ (Nat.le_trans hd hrest),
          ih rest.length (Nat.lt_succ_of_le hrest) _ hd]
      · rw [if_neg hc, if_neg hc, ih n (Nat.lt_succ_self n) rest hrest]

theorem stripTagsList_nil : stripTagsList [] = [] := rfl

theorem insertDesc_perm (e : Entry) (l : List Entry) :
    List.Perm (insertDesc e l) (e :: l) := by
  induction l with
  | nil => exact .refl _
  | cons x xs ih =>
    unfold insertDesc
    by_cases h : entryKey e < entryKey x
    · rw [if_pos h]
      exact .trans (.cons x ih) (.swap e x xs)
    · rw [if_neg h]

theorem descSorted_insertDesc (e : Entry) {l : List Entry}
    (h : DescSorted l) : DescSorted (insertDesc e l) := by
  induction l with
  | nil => simp [insertDesc, DescSorted]
  | cons x xs ih =>
    rcases List.pairwise_cons.mp h with ⟨hx, hxs⟩
    unfold insertDesc
    by_cases hlt : entryKey e < entryKey x
    · rw [if_pos hlt]
      refine List.pairwise_cons.mpr ⟨?_, ih hxs⟩
      intro y hy
      rcases List.mem_cons.mp ((insertDesc_perm e xs).subset hy) with hy | hy
      · subst hy
        exact Nat.le_of_lt hlt
      · exact hx y hy
    · rw [if_neg hlt]
      refine List.pairwise_cons.mpr ⟨?_, h⟩
      intro y hy
      rcases List.mem_cons.mp hy with hy | hy
      · subst hy
        exact Nat.le_of_not_lt hlt
      · exact Nat.le_trans (hx y hy) (Nat.le_of_not_lt hlt)

theorem sortDesc_perm (l : List Entry) : List.Perm (sortDesc l) l := by
  induction l with
  | nil => exact .refl _
  | cons x xs ih =>
    exact .trans (insertDesc_perm x (sortDesc xs)) (.cons x ih)

theorem descSorted_sortDesc (l : List Entry) : DescSorted (sortDesc l) := by
  induction l with
  | nil => simp [sortDesc, DescSorted]
  | cons x xs ih => exact descSorted_insertDesc x ih

theorem id_mem_upsert {arr : List Record} {item : Record} {j : String}
    (h : j ∈ (upsert arr item).map Record.id) :
    j ∈ arr.map Record.id ∨ j = item.id := by
  rcases List.mem_map.mp h with ⟨x, hx, rfl⟩
  rcases mem_upsert hx with hx2 | rfl
  · exact Or.inl (List.mem_map.mpr ⟨x, hx2, rfl⟩)
  · exact Or.inr rfl

theorem map_removeById_subset (arr : List Record) (i : String) :
    (removeById arr i).map Record.id ⊆ arr.map Record.id := by
  intro j hj
  rcases List.mem_map.mp hj with ⟨x, hx, rfl⟩
  exact List.mem_map.mpr ⟨x, (mem_removeById.mp hx).1, rfl⟩

theorem reachable_localInv {s : MachineState} (h : Reachable s) : localInv s := by
  induction h with
  | init => exact ⟨by simp [initState], by simp [initState]⟩
  | ghSave s owner repo branch token hs ih => exact ih
  | ghClear s hs ih => exact ih
  | saveLocal s f freshId hs hfresh ih =>
    obtain ⟨ih1, ih2⟩ := ih
    obtain ⟨hf1, hf2, hf3, hf4⟩ := hfresh
    have hid : (gatherPostData s.currentDraftId freshId f).id ∉
        s.localPosts.map Record.id := by
      cases hc : s.currentDraftId with
      | none => simpa [gatherPostData, hc] using hf2
      | some i => simpa [gatherPostData, hc] using ih2 i hc
    refine ⟨?_, ?_⟩
    · intro r hr
      rcases mem_upsert (show r ∈
          upsert s.localDrafts (gatherPostData s.currentDraftId freshId f)
          from hr) with hmem | rfl
      · exact ih1 r hmem
      · exact hid
    · intro i hi
      have heq : (gatherPostData s.currentDraftId freshId f).id = i :=
        Option.some.inj hi
      exact heq ▸ hid
  | saveGh s f freshId o hs hfresh ih =>
    simp only [saveGhStep]
    by_cases hg : hasGhConfig s.gh = true
    · rw [if_pos hg]
      cases o with
      | success => exact ih
      | contentFailed => exact ih
      | indexFailed => exact ih
    · rw [if_neg hg]
      exact ih
  | publish s f freshId o hs hfresh ih =>
    obtain ⟨ih1, ih2⟩ := ih
    simp only [publishStep]
    by_cases hv : validPost (gatherPostData s.currentDraftId freshId f) = true
    · rw [if_pos hv]
      by_cases hg : hasGhConfig s.gh = true
      · rw [if_pos hg]
        cases o with
        | contentFailed => exact ⟨ih1, ih2⟩
        | indexFailed => exact ⟨ih1, ih2⟩
        | success =>
          refine ⟨?_, ?_⟩
          · intro r hr
            exact ih1 r (mem_removeById.mp hr).1
          · intro i hi
            exact Option.noConfusion hi
      · rw [if_neg hg]
        refine ⟨?_, ?_⟩
        · intro r hr
          have hr2 := mem_removeById.mp hr
          intro hmem
          rcases id_mem_upsert hmem with hmem2 | heq
          · exact ih1 r hr2.1 hmem2
          · exact hr2.2 heq
        · intro i hi
          exact Option.noConfusion hi
    · rw [if_neg hv]
      exact ⟨ih1, ih2⟩
  | loadDraft s i hs ih =>
    obtain ⟨ih1, ih2⟩ := ih
    simp only [loadDraftStep]
    by_cases hf : (s.localDrafts.find? (fun d => d.id == i)).isSome = true
    · rw [if_pos hf]
      refine ⟨ih1, ?_⟩
      intro j hj
      have hij : i = j := Option.some.inj hj
      subst hij
      rcases Option.isSome_iff_exists.mp hf with ⟨r, hr⟩
      have hmem : r ∈ s.localDrafts := List.mem_of_find?_eq_some hr
      have hpr := List.find?_some hr
      have : r.id = i := eq_of_beq hpr
      exact this ▸ ih1 r hmem
    · rw [if_neg hf]
      exact ⟨ih1, ih2⟩
  | deleteDraft s i hs ih =>
    obtain ⟨ih1, ih2⟩ := ih
    refine ⟨?_, ih2⟩
    intro r hr
    exact ih1 r (mem_removeById.mp hr).1
  | deletePost s i hs ih =>
    obtain ⟨ih1, ih2⟩ := ih
    refine ⟨?_, ?_⟩
    · intro r hr
      intro hmem
      exact ih1 r hr (map_removeById_subset _ _ hmem)
    · intro j hj
      intro hmem
      exact ih2 j hj (map_removeById_subset _ _ hmem)

/-- Upserting `R` and then `R2` with the same id is the same as upserting
`R2` directly: the first upsert's slot is exactly the slot the second
replaces. -/
theorem upsertRec_absorb (arr : List Record) (R R2 : Record)
    (h : R2.id = R.id) : upsertRec (upsertRec arr R) R2 = upsertRec arr R2 := by
  induction arr with
  | nil => simp [upsertRec, h]
  | cons x xs ih =>
    by_cases hx : x.id == R.id
    · have hx2 : x.id == R2.id := by
        rw [h]; exact hx
      have hR : R.id == R2.id := by
        rw [h]
        exact beq_self_eq_true _
      simp [upsertRec, hx, hx2, hR]
    · have hx2 : ¬ (x.id == R2.id) := by
        rw [h]; exact hx
      simp [upsertRec, hx, hx2, ih]

/-- If no element of `arr` has the id of `R`, `upsertRec` appends. -/
theorem upsertRec_append (arr : List Record) (R : Record)
    (h : R.id ∉ arr.map Record.id) : upsertRec arr R = arr ++ [R] := by
  induction arr with
  | nil => rfl
  | cons x xs ih =>
    simp only [List.map_cons, List.mem_cons] at h
    push_neg at h
    have hx : ¬ (x.id == R.id) := by
      simp only [beq_iff_eq]
      exact fun hc => h.1 hc.symm
    simp [upsertRec, hx, ih h.2]

/-- On a collection whose ids are pairwise distinct, after `upsertRec arr R`
exactly one element bears `R.id`. -/
theorem countP_upsertRec_self (arr : List Record) (R : Record)
    (h : (arr.map Record.id).Nodup) :
    (upsertRec arr R).countP (fun x => x.id == R.id) = 1 := by
  induction arr with
  | nil => simp [upsertRec]
  | cons x xs ih =>
    simp only [List.map_cons, List.nodup_cons] at h
    by_cases hx : x.id == R.id
    · have hzero : xs.countP (fun y => y.id == R.id) = 0 := by
        rw [List.countP_eq_zero]
        intro y hy hyid
        apply h.1
        rw [eq_of_beq hx, ← eq_of_beq hyid]
        exact List.mem_map.mpr ⟨y, hy, rfl⟩
      simp [upsertRec, hx, hzero, List.countP_cons]
    · simp [upsertRec, hx, ih h.2, List.countP_cons]

/-- The recurrence of the regex-replace pass: a `<` with a later `>` strips
through that first `>` and continues; any other character is kept. -/
theorem stripTagsList_cons (c : Char) (rest : List Char) :
    stripTagsList (c :: rest) =
      if c == '<' && rest.contains '>' then
        stripTagsList ((rest.dropWhile (fun x => x != '>')).drop 1)
      else
        c :: stripTagsList rest := by
  show stripTagsFuel (c :: rest).length (c :: rest) = _
  rw [List.length_cons, stripTagsFuel_succ_cons]
  by_cases hc : (c == '<' && rest.contains '>') = true
  · rw [if_pos hc, if_pos hc]
    exact stripTagsFuel_adequate _ _ (dropThroughGt_length_le rest)
  · rw [if_neg hc, if_neg hc]
    rfl

/-- After an index upsert, exactly one entry bears the upserted id. -/
theorem countP_upsertIndexList (existing : List Entry) (meta : Entry) :
    (upsertIndexList existing meta).countP (fun x => x.id == meta.id) = 1 := by
  unfold upsertIndexList
  rw [(sortDesc_perm _).countP_eq, List.countP_append]
  have hz : (existing.filter (fun x => x.id != meta.id)).countP
      (fun x => x.id == meta.id) = 0 := by
    rw [List.countP_eq_zero]
    intro a ha hbeq
    have := (List.mem_filter.mp ha).2
    simp only [bne_iff_ne, ne_eq] at this
    exact this (eq_of_beq hbeq)
  simp [hz]

/-- The written index is sorted descending by `updatedAt` (missing values
sort as 0, i.e. oldest). -/
theorem descSorted_upsertIndexList (existing : List Entry) (meta : Entry) :
    DescSorted (upsertIndexList existing meta) :=
  descSorted_sortDesc _

/-- C1 (code bug): `gatherPostData` assigns `createdAt: Date.now()` on every
call, and `saveDraft` replaces the whole stored record, so re-saving an
existing draft overwrites its original `createdAt`. Evaluation at the
failing input: the first save at time 1 stores the draft with
`createdAt = 1`; saving the same draft again at time 2 leaves the stored
draft with `createdAt = 2`, not the original 1 — while the claim (and the
reader page, which displays `createdAt` as the post date) requires it to
stay 1. -/
theorem c1_createdAt_overwritten_on_resave :
    List.map Record.createdAt
      (saveLocalStep (saveLocalStep initState c1form1 "p1") c1form2 "p2").localDrafts
      = [2] ∧
    List.map Record.createdAt
      (saveLocalStep initState c1form1 "p1").localDrafts = [1] := by
  decide

/-- C2 counterexample: with owner, repo and branch set but an empty token,
`hasGhConfig` is false (the remote configuration is not complete), yet the
reader attempts — and uses — the remote read, refuting "attempts the remote
read exactly when the remote configuration is present and complete". -/
theorem c2_counterexample :
    hasGhConfig (some c2cfg) = false ∧
    readerRemoteGate (some c2cfg) = true ∧
    resolve (some c2cfg) (some c2post) [] "x" = some c2post := by
  decide

/-- C2 amended: the write-side operations are gated by all four fields
being non-empty (`hasGhConfig`), while the reader's resolve attempts the
remote read exactly when owner, repo and branch are non-empty — the token
is not consulted on the read path. -/
theorem c2_amended_gating (s : GhSettings) (remote : Option Record)
    (posts : List Record) (i : String) :
    (hasGhConfig (some s) = true ↔
      (s.owner ≠ "" ∧ s.repo ≠ "" ∧ s.branch ≠ "" ∧ s.token ≠ "")) ∧
    (readerRemoteGate (some s) = true ↔
      (s.owner ≠ "" ∧ s.repo ≠ "" ∧ s.branch ≠ "")) ∧
    (readerRemoteGate (some s) = false →
      resolve (some s) remote posts i = posts.find? (fun x => x.id == i)) ∧
    (∀ p, readerRemoteGate (some s) = true → remote = some p →
      resolve (some s) remote posts i = some p) := by
  refine ⟨?_, ?_, ?_, ?_⟩
  · simp [hasGhConfig, and_assoc]
  · simp [readerRemoteGate, and_assoc]
  · intro hg
    simp [resolve, hg]
  · intro p hg hr
    simp [resolve, hg, hr]

theorem c2_amended_gating_witness :
    resolve (some c2cfg) (some c2post) [] "x" = some c2post :=
  (c2_amended_gating c2cfg (some c2post) [] "x").2.2.2 c2post (by decide) rfl

/-- C3 counterexample: in the reachable state `c3state` the id "X" is
present in BOTH the remote drafts and the remote posts collections —
publishing removed only the LOCAL draft, never the remote draft file — so
per-backend exclusivity fails for the remote backend. -/
theorem c3_counterexample :
    Reachable c3state ∧
    "X" ∈ c3state.remoteDrafts.map Record.id ∧
    "X" ∈ c3state.remotePosts.map Record.id := by
  refine ⟨?_, by decide, by decide⟩
  exact Reachable.publish _ c3f2 "Z" RemoteOutcome.success
    (Reachable.saveGh _ c3f1 "Y" RemoteOutcome.success
      (Reachable.saveLocal _ c3f1 "X"
        (Reachable.ghSave _ "o" "r" "main" "t" Reachable.init)
        (by decide))
      (by decide))
    (by decide)

/-- C3 amended: the exclusivity invariant holds for the LOCAL backend in
every reachable state — a local draft's id never occurs among the local
posts, publish deleting the same-id local draft — while the remote backend
allows the duplicate exhibited by the counterexample. -/
theorem c3_amended_local_exclusive {s : MachineState} (h : Reachable s) :
    ∀ r ∈ s.localDrafts, r.id ∉ s.localPosts.map Record.id :=
  (reachable_localInv h).1

theorem c3_amended_local_exclusive_witness :
    (gatherPostData none "p9" c3wform).id ∉
      (saveLocalStep initState c3wform "p9").localPosts.map Record.id :=
  c3_amended_local_exclusive
    (Reachable.saveLocal initState c3wform "p9" Reachable.init (by decide))
    (gatherPostData none "p9" c3wform) (by decide)

/-- C4: for every prior index content and every entry, the written index
contains exactly one entry bearing the upserted identifier (the entry is
replaced, not duplicated) and is sorted descending by `updatedAt` with
entries lacking `updatedAt` sorting as oldest; and inserting entries with
`updatedAt` 100, 300, 200 yields the order 300, 200, 100. -/
theorem c4_index_upsert :
    (∀ (existing : List Entry) (meta : Entry),
      (upsertIndexList existing meta).countP (fun x => x.id == meta.id) = 1 ∧
      DescSorted (upsertIndexList existing meta)) ∧
    (upsertIndexList (upsertIndexList (upsertIndexList [] c4e100) c4e300)
        c4e200).map entryKey = [300, 200, 100] :=
  ⟨fun existing meta =>
    ⟨countP_upsertIndexList existing meta, descSorted_upsertIndexList existing meta⟩,
    by decide⟩

/-- C5: a record whose (trimmed) title is empty, or whose content stripped
of markup and trimmed is empty, fails the publish validation, and the
publish handler returns before attempting any write: the entire state —
local collections, remote content files, remote indices, settings,
session — is unchanged. -/
theorem c5_invalid_publish_no_write (s : MachineState) (f : FormState)
    (freshId : String) (o : RemoteOutcome)
    (h : jsTrimS f.rawTitle = "" ∨ jsTrimS (stripTagsS f.content) = "") :
    publishStep s f freshId o = s := by
  have hv : validPost (gatherPostData s.currentDraftId freshId f) = false := by
    rcases h with h | h <;> simp [validPost, gatherPostData, h]
  simp [publishStep, hv]

theorem c5_invalid_publish_no_write_witness :
    publishStep initState c5form "q" RemoteOutcome.success = initState :=
  c5_invalid_publish_no_write initState c5form "q" RemoteOutcome.success
    (Or.inl (by decide))

/-- C6: with the remote read failing (any failure — not found, parse error,
network error — leaves the reader's `post` null, modelled `remote = none`),
resolve falls back to the local posts lookup; and when the id exists in
neither backend the result is the absent value `none`, not an exception
(`resolve` is a total function), in local-only and remote-configured modes
alike. -/
theorem c6_resolve_fallback (gh : Option GhSettings) (posts : List Record)
    (i : String) :
    (resolve gh none posts i = posts.find? (fun x => x.id == i)) ∧
    (posts.find? (fun x => x.id == i) = none → resolve gh none posts i = none) := by
  have h1 : resolve gh none posts i = posts.find? (fun x => x.id == i) := by
    simp [resolve]
  exact ⟨h1, fun h2 => h1.trans h2⟩

theorem c6_resolve_fallback_witness :
    resolve (some c6cfg) none [] "missing" = none :=
  (c6_resolve_fallback (some c6cfg) [] "missing").2 rfl

/-- C7: a successful publish — the local branch always, the GitHub branch
when both remote writes succeed — leaves no local draft bearing the
published record's identifier. -/
theorem c7_publish_deletes_local_draft (s : MachineState) (f : FormState)
    (freshId : String) (o : RemoteOutcome)
    (hval : validPost (gatherPostData s.currentDraftId freshId f) = true)
    (hok : hasGhConfig s.gh = true → o = RemoteOutcome.success) :
    ∀ x ∈ (publishStep s f freshId o).localDrafts,
      x.id ≠ (gatherPostData s.currentDraftId freshId f).id := by
  intro x hx
  have hx2 : x ∈ removeById s.localDrafts
      (gatherPostData s.currentDraftId freshId f).id := by
    by_cases hg : hasGhConfig s.gh = true
    · have ho := hok hg
      subst ho
      simpa [publishStep, hval, hg] using hx
    · simpa [publishStep, hval, hg] using hx
  exact (mem_removeById.mp hx2).2

theorem c7_publish_deletes_local_draft_witness :
    c7rec ∉ (publishStep c7s0 c7form "B" RemoteOutcome.success).localDrafts := by
  intro hmem
  exact c7_publish_deletes_local_draft c7s0 c7form "B" RemoteOutcome.success
    (by decide) (fun _ => rfl) c7rec hmem (by decide)

/-- C8 counterexample: on a collection that already contains two entries
with the same identifier, upserting R and then R2 (same id) leaves TWO
entries bearing that identifier — `upsert` replaces only the first match —
so "no duplicate entry for that identifier exists" fails for arbitrary
collections. -/
theorem c8_counterexample :
    (upsert (upsert [c8b, c8c] c8r) c8r2).countP (fun x => x.id == c8r2.id) = 2 := by
  decide

/-- C8 amended: upserting R and then R2 with R2.id = R.id equals upserting
R2 directly (R is fully replaced, never left alongside R2); on a collection
whose identifiers are pairwise distinct — the invariant the store's own
operations maintain — exactly one entry bears that identifier afterwards;
and upserting a record whose id is absent appends it. -/
theorem c8_amended_upsert (arr : List Record) (R R2 : Record)
    (h : R2.id = R.id) :
    (upsert (upsert arr R) R2 = upsert arr R2) ∧
    ((arr.map Record.id).Nodup →
      (upsert (upsert arr R) R2).countP (fun x => x.id == R2.id) = 1) ∧
    (R.id ∉ arr.map Record.id → upsert arr R = arr ++ [R]) := by
  have e1 : upsert (upsert arr R) R2 = upsertRec arr R2 := by
    rw [upsert_eq_upsertRec, upsert_eq_upsertRec]
    exact upsertRec_absorb arr R R2 h
  refine ⟨?_, ?_, ?_⟩
  · rw [e1, upsert_eq_upsertRec]
  · intro hnd
    rw [e1]
    exact countP_upsertRec_self arr R2 hnd
  · intro habs
    rw [upsert_eq_upsertRec]
    exact upsertRec_append arr R habs

theorem c8_amended_upsert_witness :
    (upsert (upsert [c8z] c8r) c8r2).countP (fun x => x.id == c8r2.id) = 1 :=
  (c8_amended_upsert [c8z] c8r c8r2 (by decide)).2.1 (by decide)

/-- C9 counterexample: a stored value that is valid JSON but not an array —
the number 5 — is truthy, so `loadArray` returns it unchanged: `getAll`
yields a non-sequence, refuting "returns an ordered sequence of records"
over all underlying stored values. -/
theorem c9_counterexample :
    loadArray (StoredVal.value (JVal.num 5)) = JVal.num 5 ∧
    (loadArray (StoredVal.value (JVal.num 5))).isArr = false := by
  decide

/-- C9 amended: `loadArray` never raises (it is a total function) and
returns the empty array for an absent key, for unparseable JSON, and for
any falsy parsed value; a parsed JSON array is returned as-is (insertion
order preserved); but a truthy non-array JSON value is passed through
rather than degraded to the empty sequence. -/
theorem c9_amended_loadArray :
    loadArray StoredVal.absent = JVal.arr [] ∧
    loadArray StoredVal.malformed = JVal.arr [] ∧
    (∀ l, loadArray (StoredVal.value (JVal.arr l)) = JVal.arr l) ∧
    (∀ v, truthy v = false → loadArray (StoredVal.value v) = JVal.arr []) ∧
    (∀ v, truthy v = true → loadArray (StoredVal.value v) = v) := by
  refine ⟨rfl, rfl, fun l => rfl, fun v hv => ?_, fun v hv => ?_⟩
  · simp [loadArray, hv]
  · simp [loadArray, hv]

theorem c9_amended_loadArray_witness :
    loadArray (StoredVal.value JVal.null) = JVal.arr [] :=
  c9_amended_loadArray.2.2.2.1 JVal.null rfl

/-- C10: every failed sha lookup — network rejection, non-2xx HTTP status,
response-body parse failure — collapses to an absent version token, exactly
as for a genuinely missing path, and the subsequent `putFile` payload then
carries no sha (a create-style write) even when the path exists remotely;
a successful lookup with a non-empty sha yields it. -/
theorem c10_sha_lookup_failure :
    getContentSha ReqResult.netErr = none ∧
    (∀ status, getContentSha (ReqResult.httpErr status) = none) ∧
    getContentSha ReqResult.jsonErr = none ∧
    (∀ txt msg br, (putFilePayload ReqResult.netErr txt msg br).sha = none) ∧
    (∀ status txt msg br,
      (putFilePayload (ReqResult.httpErr status) txt msg br).sha = none) ∧
    getContentSha (ReqResult.ok (some { sha := some "abc" })) = some "abc" := by
  refine ⟨rfl, fun status => rfl, rfl, fun t m b => rfl, fun st t m b => rfl, ?_⟩
  decide

end Blog
